import Mathlib

/-!
Verification of the sidetree.js Anchor Observer & Historical Sync Engine
(`packages/core/src/Observer.ts`, `packages/ledger-zksync/src/*`).

The TypeScript source is shallowly embedded: pure computations become Lean
functions, the stateful observer loops become explicit state passing with
fuel for the unbounded `while` loops, and the asynchronous processing
pipeline is modelled by oracles (the outcome of the version-specific
processor for each record, and schedules of status updates happening during
the polling waits).  Persistent stores are modelled as the list of records
they received, in order (`addTransaction` is an append; the interface gives
no deduplication semantics).  Opaque strings of the observer layer (block
hashes, writers) are modelled as `Nat`; the anchor-string layer, where
byte-exactness matters, uses `List Char` and `List Nat` byte buffers.
-/

namespace SidetreeObserver

/-- `TransactionModel` from `@sidetree/common`: one anchor record.
Block hashes and writer addresses are opaque strings in the source,
modelled as `Nat`; the anchor string is kept byte-exact as `List Char`. -/
structure TransactionModel where
  transactionNumber : Nat
  transactionTime : Nat
  transactionTimeHash : Nat
  anchorString : List Char
  transactionFeePaid : Nat
  normalizedTransactionFee : Nat
  writer : Nat
  deriving DecidableEq, Repr

/-- `TransactionProcessingStatus` enum of `Observer.ts` (lines 21-25). -/
inductive TransactionProcessingStatus where
  | error
  | processing
  | processed
  deriving DecidableEq, Repr

/-- `TransactionUnderProcessingModel`: an entry of the
`transactionsUnderProcessing` sequence. -/
structure TransactionUnderProcessingModel where
  transaction : TransactionModel
  processingStatus : TransactionProcessingStatus
  deriving DecidableEq, Repr

/-- Outcome of one call of the version-specific transaction processor
(`ITransactionProcessor.processTransaction`): it either resolves to a
boolean (full success / logical failure) or rejects (throws). -/
abbrev ProcessorOutcome := Except Unit Bool

/-- `Observer.processTransaction` (Observer.ts lines 655-695).  The
`try`/`catch` around the processor call maps a thrown error to
`transactionProcessedSuccessfully = false`; on success the unresolvable
entry is removed (fire-and-forget, returned here as the second component);
on failure the code only logs ("Per user request, disabling retry for
now").  In all cases the final statement sets the under-processing entry's
status to `Processed`.  Returns the updated entry and whether
`removeUnresolvableTransaction` was issued. -/
def processTransaction (outcome : ProcessorOutcome)
    (t : TransactionUnderProcessingModel) :
    TransactionUnderProcessingModel × Bool :=
  let transactionProcessedSuccessfully :=
    match outcome with
    | .ok b => b
    | .error _ => false
  ({ t with processingStatus := .processed }, transactionProcessedSuccessfully)

/-- `Observer.getCountOfTransactionsUnderProcessing` (lines 547-556):
the number of entries whose status is `Processing`. -/
def getCountOfTransactionsUnderProcessing
    (transactionsUnderProcessing : List TransactionUnderProcessingModel) : Nat :=
  (transactionsUnderProcessing.filter
    (fun t => t.processingStatus = .processing)).length

/-- `Observer.hasErrorInTransactionProcessing` (lines 561-568): true when
some entry has status `Error`. -/
def hasErrorInTransactionProcessing
    (transactionsUnderProcessing : List TransactionUnderProcessingModel) : Bool :=
  ((transactionsUnderProcessing.find?
    (fun t => t.processingStatus = .error)).isSome)

/-- The admission step of the live loop (Observer.ts lines 444-452): each
qualified transaction is wrapped with status `Processing` and pushed onto
`transactionsUnderProcessing`; the processing task is spawned without
awaiting, so at the instant the loop finishes all new entries still carry
status `Processing`. -/
def admitTransactions
    (transactionsUnderProcessing : List TransactionUnderProcessingModel)
    (qualifiedTransactions : List TransactionModel) :
    List TransactionUnderProcessingModel :=
  transactionsUnderProcessing ++
    qualifiedTransactions.map (fun t => ⟨t, .processing⟩)

/-- Completion of the spawned processing tasks: every entry's status is
updated by running `processTransaction` with the oracle's outcome for its
record.  This is the state of the sequence once all in-flight work has
drained. -/
def completeProcessing (outcome : TransactionModel → ProcessorOutcome)
    (l : List TransactionUnderProcessingModel) :
    List TransactionUnderProcessingModel :=
  l.map (fun t => (processTransaction (outcome t.transaction) t).1)

/-- `Observer.storeThenTrimConsecutiveTransactionsProcessed` (lines
629-648): walk the sequence from its head, append every consecutive
`Processed` entry's record to the transaction store, and trim them off;
stop at the first entry that is not `Processed`.  The store is the list of
records passed to `addTransaction`, in order. -/
def storeThenTrimConsecutiveTransactionsProcessed
    (store : List TransactionModel)
    (transactionsUnderProcessing : List TransactionUnderProcessingModel) :
    List TransactionModel × List TransactionUnderProcessingModel :=
  match transactionsUnderProcessing with
  | [] => (store, [])
  | t :: rest =>
    if t.processingStatus = .processed then
      storeThenTrimConsecutiveTransactionsProcessed
        (store ++ [t.transaction]) rest
    else
      (store, t :: rest)

/-- `Observer.waitUntilCountOfTransactionsUnderProcessingIsLessOrEqualTo`
(lines 570-585): poll until the count of `Processing` entries is at most
`count`.  Each element of `schedule` is the batch of status updates the
concurrently running tasks apply during one 1-second sleep.  `none` means
the schedule was exhausted while the loop was still waiting. -/
def waitUntilCountOfTransactionsUnderProcessingIsLessOrEqualTo
    (schedule : List (List TransactionUnderProcessingModel →
      List TransactionUnderProcessingModel))
    (l : List TransactionUnderProcessingModel) (count : Nat) :
    Option (List TransactionUnderProcessingModel) :=
  if getCountOfTransactionsUnderProcessing l ≤ count then
    some l
  else
    match schedule with
    | [] => none
    | step :: rest =>
      waitUntilCountOfTransactionsUnderProcessingIsLessOrEqualTo
        rest (step l) count

/-- The comparator of both sorts in `Observer.ts`
(`(a, b) => a.transactionNumber - b.transactionNumber`): ascending order on
`transactionNumber`. -/
def leByNumber (a b : TransactionModel) : Prop :=
  a.transactionNumber ≤ b.transactionNumber

instance : DecidableRel leByNumber := fun a b =>
  Nat.decLe a.transactionNumber b.transactionNumber

instance : IsTotal TransactionModel leByNumber :=
  ⟨fun a b => Nat.le_total a.transactionNumber b.transactionNumber⟩

instance : IsTrans TransactionModel leByNumber :=
  ⟨fun _ _ _ => Nat.le_trans⟩

/-- The zkSync chain reader `_getTransactions(fromBlock, toBlock)`
(`ZksyncLedger.ts`): an `eth_getLogs` query over the INCLUSIVE block range
`[fromBlock, toBlock]`, decoded into anchor records.  `chain` is the full
event log of the anchor contract. -/
def getTransactionsInRange (chain : List TransactionModel)
    (fromBlock toBlock : Nat) : List TransactionModel :=
  chain.filter (fun t =>
    decide (fromBlock ≤ t.transactionTime ∧ t.transactionTime ≤ toBlock))

/-- The batch fetched by `processHistoricalBatch` (Observer.ts lines
285-302): the records of the inclusive block range, sorted by
`transactionNumber` (a stable comparator sort, embedded as insertion
sort). -/
def sortedBatch (chain : List TransactionModel) (fromBlock toBlock : Nat) :
    List TransactionModel :=
  List.insertionSort leByNumber (getTransactionsInRange chain fromBlock toBlock)

/-- The per-record loop of `Observer.processHistoricalBatch` (lines
305-339): wrap the record with status `Processing`, run
`processTransaction`, and, if the status afterwards is `Processed`, append
the record to the transaction store.  The `catch` branch (which would
record an unresolvable-transaction-fetch-attempt) only fires when
`processTransaction` or `addTransaction` throws; `processTransaction`
swallows all processor errors, and store calls are modelled as
non-throwing, so the handler is unreachable and the unresolvable store is
threaded through unchanged. -/
def processHistoricalBatchAux (outcome : TransactionModel → ProcessorOutcome) :
    List TransactionModel → List TransactionModel → List TransactionModel →
    List TransactionModel × List TransactionModel
  | [], store, unresolvable => (store, unresolvable)
  | transaction :: rest, store, unresolvable =>
    let transactionUnderProcessing : TransactionUnderProcessingModel :=
      ⟨transaction, .processing⟩
    let processed :=
      (processTransaction (outcome transaction) transactionUnderProcessing).1
    if processed.processingStatus = .processed then
      processHistoricalBatchAux outcome rest (store ++ [transaction]) unresolvable
    else
      processHistoricalBatchAux outcome rest store unresolvable

/-- `Observer.processHistoricalBatch` (lines 280-340): fetch the inclusive
block range, sort by `transactionNumber`, and run the per-record loop. -/
def processHistoricalBatch (outcome : TransactionModel → ProcessorOutcome)
    (chain : List TransactionModel) (fromBlock toBlock : Nat)
    (store unresolvable : List TransactionModel) :
    List TransactionModel × List TransactionModel :=
  processHistoricalBatchAux outcome (sortedBatch chain fromBlock toBlock)
    store unresolvable

/-- The `while` loop of `Observer.performHistoricalSync` (lines 210-271) in
the run where every batch succeeds (RPC and stores never throw; the retry
path is modelled separately by `processBatchWithRetries`).  Each iteration
processes `[lastSyncedBlock, min(lastSyncedBlock + batchSize, targetBlock)]`
and then advances `lastSyncedBlock` to the batch end; note the next batch
starts at the previous batch's END block, so the boundary block is scanned
twice.  `fuel` bounds the number of iterations; since every iteration with
`batchSize ≥ 1` advances `lastSyncedBlock` by at least 1,
`fuel = targetBlock - lastSyncedBlock` is always sufficient. -/
def performHistoricalSyncAux (outcome : TransactionModel → ProcessorOutcome)
    (chain : List TransactionModel) (batchSize targetBlock : Nat) :
    Nat → Nat → List TransactionModel → List TransactionModel →
    List TransactionModel × List TransactionModel × Nat
  | 0, lastSyncedBlock, store, unresolvable => (store, unresolvable, lastSyncedBlock)
  | fuel + 1, lastSyncedBlock, store, unresolvable =>
    if lastSyncedBlock < targetBlock then
      let batchStartBlock := lastSyncedBlock
      let batchEndBlock := min (batchStartBlock + batchSize) targetBlock
      let result :=
        processHistoricalBatch outcome chain batchStartBlock batchEndBlock
          store unresolvable
      performHistoricalSyncAux outcome chain batchSize targetBlock
        fuel batchEndBlock result.1 result.2
    else
      (store, unresolvable, lastSyncedBlock)

/-- `Observer.performHistoricalSync` started at `startBlock` (the
`lastSyncedBlock` set by `initializeSyncState`). -/
def performHistoricalSync (outcome : TransactionModel → ProcessorOutcome)
    (chain : List TransactionModel) (batchSize startBlock targetBlock : Nat)
    (store unresolvable : List TransactionModel) :
    List TransactionModel × List TransactionModel × Nat :=
  performHistoricalSyncAux outcome chain batchSize targetBlock
    (targetBlock - startBlock) startBlock store unresolvable

/-- Identifier of the error thrown by a failed batch attempt. -/
abbrev BatchError := Nat

deriving instance DecidableEq for Except

/-- Result of running one historical batch through the retry logic: the
backoff sleeps performed (in milliseconds, in order) and either
`.error e` (the walk aborts, rethrowing the last attempt's error),
`.ok true` (the batch succeeded and `lastSyncedBlock` advances) or
`.ok false` (the `maxRetries = 0` corner: the initial error is swallowed
and the loop continues without advancing). -/
structure RetryResult where
  sleeps : List Nat
  outcome : Except BatchError Bool
  deriving DecidableEq

/-- The retry `while` loop of `Observer.performHistoricalSync` (lines
247-269).  `attempts i` is the outcome of attempt `i` of the batch
(`none` = success, `some e` = failure with error `e`); attempt `0` is the
initial, pre-retry attempt.  `remaining = maxRetries - retryCount` makes
the loop condition `retryCount < maxRetries` structural.  Before retry
attempt `retryCount + 1` the code sleeps
`retryDelayMs * (retryCount + 1)`; when the attempt fails and
`retryCount + 1 ≥ maxRetries` the last error is rethrown, aborting the
historical walk. -/
def retryLoop (attempts : Nat → Option BatchError)
    (maxRetries retryDelayMs : Nat) :
    Nat → Nat → List Nat → RetryResult
  | 0, _, sleeps => ⟨sleeps, .ok false⟩
  | remaining + 1, retryCount, sleeps =>
    let sleeps' := sleeps ++ [retryDelayMs * (retryCount + 1)]
    match attempts (retryCount + 1) with
    | none => ⟨sleeps', .ok true⟩
    | some retryError =>
      if maxRetries ≤ retryCount + 1 then ⟨sleeps', .error retryError⟩
      else retryLoop attempts maxRetries retryDelayMs remaining (retryCount + 1) sleeps'

/-- One historical batch with the retry policy of
`Observer.performHistoricalSync` (lines 224-270): the initial attempt,
then on failure up to `maxRetries` retries with linear backoff. -/
def processBatchWithRetries (attempts : Nat → Option BatchError)
    (maxRetries retryDelayMs : Nat) : RetryResult :=
  match attempts 0 with
  | none => ⟨[], .ok true⟩
  | some _ => retryLoop attempts maxRetries retryDelayMs maxRetries 0 []

/-- Result of `IBlockchain.read`. -/
structure ReadResult where
  moreTransactions : Bool
  transactions : List TransactionModel
  deriving DecidableEq

/-- How a blockchain read can fail: a `SidetreeError` with code
`InvalidTransactionNumberOrTimeHash` (the invalid-cursor signal), or any
other error (which `processTransactions` rethrows). -/
inductive ReadError where
  | invalidTransactionNumberOrTimeHash
  | other
  deriving DecidableEq

/-- The read / reorg-decision segment of one `processTransactions`
iteration (Observer.ts lines 398-468).  Returns
`(blockReorganizationDetected, moreTransactions)`; an `other` read error
is rethrown.  On an invalid-cursor failure `readResult` stays undefined,
so `transactions = []` and `moreTransactions = false`; a reorg is then
declared exactly when the cursor transaction's `transactionTime` is at
most the chain's latest time, and in that case `moreTransactions` is
forced `true` (another iteration).  When the inequality fails the code
only logs that the blockchain service is behind.  The reorg rewind
(`revertInvalidTransactions`) is invoked by the iteration if and only if
the first component is `true`. -/
def processReadAndDetectReorg (readOutcome : Except ReadError ReadResult)
    (cursorTransactionTime latestBlockchainTime : Nat) :
    Except ReadError (Bool × Bool) :=
  match readOutcome with
  | .error .other => .error .other
  | .error .invalidTransactionNumberOrTimeHash =>
    if cursorTransactionTime ≤ latestBlockchainTime then
      (.ok (true, true))
    else
      (.ok (false, false))
  | .ok readResult => .ok (false, readResult.moreTransactions)

/-- Trace of the deletions issued by `revertInvalidTransactions`, in
order. -/
inductive RevertAction where
  | deleteOperationsLaterThan (v : Option Nat)
  | removeUnresolvableLaterThan (v : Option Nat)
  | removeTransactionsLaterThan (v : Option Nat)
  deriving DecidableEq

/-- Modelled from the spec: `IOperationStore.delete(transactionNumber?)`
(the store implementations are not under src/) deletes every operation
whose source transaction number is greater than the argument; with no
argument everything is deleted.  The operation store is modelled as the
list of the source transaction numbers of its operations. -/
def operationStoreDelete (v : Option Nat) (operations : List Nat) : List Nat :=
  match v with
  | none => []
  | some v => operations.filter (fun n => decide (n ≤ v))

/-- Modelled from the spec:
`IUnresolvableTransactionStore.removeUnresolvableTransactionsLaterThan(N)`
deletes every entry with transaction number greater than `N`; with no
argument everything is deleted. -/
def removeUnresolvableTransactionsLaterThan (v : Option Nat)
    (unresolvable : List TransactionModel) : List TransactionModel :=
  match v with
  | none => []
  | some v => unresolvable.filter (fun t => decide (t.transactionNumber ≤ v))

/-- Modelled from the spec:
`ITransactionStore.removeTransactionsLaterThan(N)` deletes every record
with transaction number greater than `N`; with no argument everything is
deleted. -/
def removeTransactionsLaterThanFromStore (v : Option Nat)
    (transactions : List TransactionModel) : List TransactionModel :=
  match v with
  | none => []
  | some v => transactions.filter (fun t => decide (t.transactionNumber ≤ v))

/-- `Observer.revertInvalidTransactions` (lines 700-729): probe the chain
with an exponentially-spaced sample of the transaction store
(`getExponentiallySpacedTransactions`, a store capability, passed as an
oracle) through `IBlockchain.getFirstValidTransaction` (also an oracle),
then delete everything later than the best known valid transaction from
the operation store, the unresolvable store, and (deliberately last) the
transaction store.  Returns the three pruned stores and the ordered trace
of deletions. -/
def revertInvalidTransactions
    (getExponentiallySpacedTransactions :
      List TransactionModel → List TransactionModel)
    (getFirstValidTransaction :
      List TransactionModel → Option TransactionModel)
    (operations : List Nat) (unresolvable transactions : List TransactionModel) :
    (List Nat × List TransactionModel × List TransactionModel) ×
      List RevertAction :=
  let exponentiallySpacedTransactions :=
    getExponentiallySpacedTransactions transactions
  let bestKnownValidRecentTransaction :=
    getFirstValidTransaction exponentiallySpacedTransactions
  let bestKnownValidRecentTransactionNumber :=
    bestKnownValidRecentTransaction.map (fun t => t.transactionNumber)
  let operations' :=
    operationStoreDelete bestKnownValidRecentTransactionNumber operations
  let unresolvable' :=
    removeUnresolvableTransactionsLaterThan
      bestKnownValidRecentTransactionNumber unresolvable
  let transactions' :=
    removeTransactionsLaterThanFromStore
      bestKnownValidRecentTransactionNumber transactions
  ((operations', unresolvable', transactions'),
    [.deleteOperationsLaterThan bestKnownValidRecentTransactionNumber,
     .removeUnresolvableLaterThan bestKnownValidRecentTransactionNumber,
     .removeTransactionsLaterThan bestKnownValidRecentTransactionNumber])

/-- The `phase` field of `SyncState`. -/
inductive SyncPhase where
  | historical
  | live
  deriving DecidableEq

/-- The `SyncState` record of `Observer.ts` (lines 27-33). -/
structure SyncState where
  phase : SyncPhase
  lastSyncedBlock : Nat
  targetBlock : Nat
  contractDeploymentBlock : Nat
  isComplete : Bool
  deriving DecidableEq

/-- `Observer.detectContractDeploymentBlock` (lines 196-202): always
returns block 0 in the current implementation. -/
def detectContractDeploymentBlock : Nat := 0

/-- `Observer.initializeSyncState` (lines 134-190).  Inputs: the current
sync state, the chain tip height (`getLatestTime().time`), the last
persisted record (`transactionStore.getLastTransaction()`), the chain
client's `getBlockNumberByHash` (an oracle from opaque hashes to heights)
and the configured historical batch size.  The gap is computed with signed
arithmetic, as in JavaScript. -/
def initializeSyncState (st : SyncState) (latestTime : Nat)
    (lastTransaction : Option TransactionModel)
    (getBlockNumberByHash : Nat → Nat) (batchSize : Nat) : SyncState :=
  let st1 := { st with targetBlock := latestTime }
  match lastTransaction with
  | none =>
    { st1 with
      phase := .historical
      lastSyncedBlock := 0
      contractDeploymentBlock := detectContractDeploymentBlock
      isComplete := false }
  | some lastTx =>
    let lastTransactionBlockNumber :=
      getBlockNumberByHash lastTx.transactionTimeHash
    let gapSize : Int :=
      (st1.targetBlock : Int) - (lastTransactionBlockNumber : Int)
    if (batchSize : Int) < gapSize then
      { st1 with
        phase := .historical
        lastSyncedBlock := lastTransactionBlockNumber
        contractDeploymentBlock := detectContractDeploymentBlock
        isComplete := false }
    else
      { st1 with phase := .live, isComplete := true }

/-- A minimal heap for the aliasing claim about `Observer.getSyncState`:
`cells` maps addresses to `SyncState` objects, `syncStateRef` is the
address of the observer's private `syncState`, and `nextFresh` is the next
never-used address (the allocation invariant is `syncStateRef < nextFresh`). -/
structure ObserverHeap where
  cells : Nat → SyncState
  syncStateRef : Nat
  nextFresh : Nat

/-- `Observer.getSyncState` (lines 352-354): `return { ...this.syncState }`
allocates a fresh object and copies every field of the internal state into
it (all fields are primitives, so the shallow spread is a full copy).
Returns the fresh object's address and the heap after the allocation. -/
def getSyncState (h : ObserverHeap) : Nat × ObserverHeap :=
  let copied := h.cells h.syncStateRef
  (h.nextFresh,
    { cells := fun a => if a = h.nextFresh then copied else h.cells a
      syncStateRef := h.syncStateRef
      nextFresh := h.nextFresh + 1 })

/-- A caller mutating an object it holds: overwrite the cell at `addr`. -/
def writeCell (h : ObserverHeap) (addr : Nat) (v : SyncState) : ObserverHeap :=
  { h with cells := fun a => if a = addr then v else h.cells a }

/-- The decimal digit character for `d < 10` (codepoint 48 = '0'). -/
def decDigitChar (d : Nat) : Char := Char.ofNat (48 + d)

/-- Decimal digits of `n`, most significant first; empty for `n = 0`.
`fuel` bounds the recursion depth; since the value strictly decreases at
every step, `fuel = n` is always sufficient (the callers below pass it),
so no truncation ever occurs. -/
def decDigitsAux : Nat → Nat → List Char
  | 0, _ => []
  | fuel + 1, n =>
    if n = 0 then []
    else decDigitsAux fuel (n / 10) ++ [decDigitChar (n % 10)]

/-- The canonical decimal representation of a natural number, as
JavaScript template interpolation of a number produces it. -/
def decRepr (n : Nat) : List Char :=
  if n = 0 then ['0'] else decDigitsAux n n

/-- Parse one decimal digit character. -/
def parseDecDigit (c : Char) : Option Nat :=
  if 48 ≤ c.toNat ∧ c.toNat ≤ 57 then some (c.toNat - 48) else none

/-- Left-to-right accumulator pass of decimal parsing
(`Number.parseInt` on an all-digit string). -/
def parseDecimalAux : List Char → Nat → Option Nat
  | [], acc => some acc
  | c :: rest, acc =>
    match parseDecDigit c with
    | some d => parseDecimalAux rest (acc * 10 + d)
    | none => none

/-- Decimal parsing of a non-empty digit string. -/
def parseDecimal (l : List Char) : Option Nat :=
  if l.isEmpty then none else parseDecimalAux l 0

/-- The base58btc alphabet used by `Encoder.bufferToBase58`
(bitcoin alphabet: no 0, O, I, l). -/
def base58Alphabet : List Char :=
  "123456789ABCDEFGHJKLMNPQRSTUVWXYZabcdefghijkmnopqrstuvwxyz".toList

/-- The alphabet character of a base58 digit value. -/
def base58Digit (d : Nat) : Char := base58Alphabet.getD d '1'

/-- Base58 digits of `n`, most significant first; empty for `n = 0`.
`fuel` bounds the recursion depth; `fuel` digits suffice whenever
`n < 58 ^ fuel`, which the caller below guarantees. -/
def base58DigitsAux : Nat → Nat → List Char
  | 0, _ => []
  | fuel + 1, n =>
    if n = 0 then []
    else base58DigitsAux fuel (n / 58) ++ [base58Digit (n % 58)]

/-- Modelled from the spec: `Encoder.bufferToBase58` from
`@sidetree/common` (not under src/) — the canonical base58btc encoding of
a byte buffer: one `'1'` per leading zero byte, then the base58 digits of
the buffer read as a big-endian integer.  The fuel `8 * length + 1` never
truncates: the value is below `256 ^ length = 2 ^ (8 * length)`, which is
at most `58 ^ (8 * length)`. -/
def bufferToBase58 (bytes : List Nat) : List Char :=
  let value := bytes.foldl (fun acc b => acc * 256 + b) 0
  let leadingZeroCount := (bytes.takeWhile (fun b => b == 0)).length
  List.replicate leadingZeroCount '1' ++
    base58DigitsAux (8 * bytes.length + 1) value

/-- JavaScript `String.prototype.split('.')` on a character list: the
(possibly empty) segments between the dots. -/
def splitOnDot : List Char → List (List Char)
  | [] => [[]]
  | c :: rest =>
    if c = '.' then [] :: splitOnDot rest
    else
      match splitOnDot rest with
      | [] => [[c]]
      | p :: ps => (c :: p) :: ps

/-- The `anchorObject` handled by `AnchoredDataSerializer`:
`{ coreIndexFileUri, numberOfOperations }`. -/
structure AnchoredData where
  coreIndexFileUri : List Char
  numberOfOperations : Nat
  deriving DecidableEq

namespace AnchoredDataSerializer

/-- Modelled from the spec: `AnchoredDataSerializer.serialize` from
`@sidetree/core` (not under src/) — the anchor string
`"<numberOfOperations>.<coreIndexFileUri>"` with the operation count in
decimal. -/
def serialize (d : AnchoredData) : List Char :=
  decRepr d.numberOfOperations ++ '.' :: d.coreIndexFileUri

/-- Modelled from the spec: `AnchoredDataSerializer.deserialize` from
`@sidetree/core` (not under src/) — split on the dot delimiter, require
exactly two parts, and parse the first as a decimal number. -/
def deserialize (s : List Char) : Option AnchoredData :=
  match splitOnDot s with
  | [a, b] => (parseDecimal a).map (fun n => ⟨b, n⟩)
  | _ => none

end AnchoredDataSerializer

/-- The decoded `Anchor` event log (`ElementEventData` of
`ledger-zksync/src/types.ts`).  The source carries `anchorFileHash` as a
`0x`-prefixed hex string; it is modelled directly as the raw byte list the
hex denotes.  `numberOfOperations`, `transactionNumber` and `writer` are
decimal strings in the source, parsed with `Number.parseInt` on use;
they are modelled as the numbers they denote. -/
structure ElementEventData where
  anchorFileHash : List Nat
  numberOfOperations : Nat
  transactionNumber : Nat
  writer : Nat
  blockNumber : Nat
  blockHash : Nat

/-- `utils.eventLogToSidetreeTransaction` of `ledger-zksync`: build the
core index file URI by base58-encoding the buffer
`0x12 0x20 ++ anchorFileHash` (the hex concatenation
`'1220' + log.args.anchorFileHash.replace('0x', '')`), serialize the
anchor string, and assemble the `TransactionModel` with zero fees. -/
def eventLogToSidetreeTransaction (log : ElementEventData) : TransactionModel :=
  let coreIndexFileUri := bufferToBase58 (0x12 :: 0x20 :: log.anchorFileHash)
  let anchorObject : AnchoredData :=
    ⟨coreIndexFileUri, log.numberOfOperations⟩
  let anchorString := AnchoredDataSerializer.serialize anchorObject
  { transactionNumber := log.transactionNumber
    transactionTime := log.blockNumber
    transactionTimeHash := log.blockHash
    anchorString := anchorString
    transactionFeePaid := 0
    normalizedTransactionFee := 0
    writer := log.writer }

/-! ### Helper lemmas about the live processing pipeline -/

theorem processTransaction_processingStatus (outcome : ProcessorOutcome)
    (t : TransactionUnderProcessingModel) :
    (processTransaction outcome t).1.processingStatus = .processed := rfl

theorem completeProcessing_status (oc : TransactionModel → ProcessorOutcome)
    (l : List TransactionUnderProcessingModel) :
    ∀ t ∈ completeProcessing oc l, t.processingStatus = .processed := by
  intro t ht
  rcases List.mem_map.mp ht with ⟨u, _, rfl⟩
  rfl

theorem hasError_completeProcessing (oc : TransactionModel → ProcessorOutcome)
    (l : List TransactionUnderProcessingModel) :
    hasErrorInTransactionProcessing (completeProcessing oc l) = false := by
  have hnone : (completeProcessing oc l).find?
      (fun t => t.processingStatus = .error) = none := by
    rw [List.find?_eq_none]
    intro t ht
    have := completeProcessing_status oc l t ht
    simp [this]
  rw [hasErrorInTransactionProcessing, hnone]
  rfl

theorem storeThenTrim_of_all_processed
    (l : List TransactionUnderProcessingModel)
    (hall : ∀ t ∈ l, t.processingStatus = .processed) :
    ∀ store, storeThenTrimConsecutiveTransactionsProcessed store l =
      (store ++ l.map (fun t => t.transaction), []) := by
  induction l with
  | nil => intro store; simp [storeThenTrimConsecutiveTransactionsProcessed]
  | cons t rest ih =>
    intro store
    have ht : t.processingStatus = .processed := hall t (by simp)
    rw [storeThenTrimConsecutiveTransactionsProcessed, if_pos ht,
      ih (fun u hu => hall u (by simp [hu]))]
    simp

/-! ### C1 -/

/-- C1 counterexample.  The claim states that a record whose processing
throws gets its under-processing entry marked `Error`, after which the
fence keeps later records out of the transaction store, clears the
sequence and resets the cursor.  In the code `processTransaction` catches
every thrown error and unconditionally marks the entry `Processed`
(Observer.ts lines 668-694), so in the concrete run below — ten admitted
records whose fourth processor call throws — the failed entry ends up
`Processed`, no entry is ever `Error`, and the consolidation persists all
ten records including those admitted after the failure. -/
theorem c1_counterexample :
    let records := (List.range 10).map
      (fun i => (⟨i, 1, i, [], 0, 0, 0⟩ : TransactionModel))
    let outcome := fun t : TransactionModel =>
      if t.transactionNumber = 3 then (Except.error () : ProcessorOutcome)
      else .ok true
    let drained := completeProcessing outcome (admitTransactions [] records)
    (∀ t ∈ drained, t.processingStatus = .processed) ∧
    hasErrorInTransactionProcessing drained = false ∧
    (storeThenTrimConsecutiveTransactionsProcessed [] drained).1.map
        (fun t => t.transactionNumber) = [0, 1, 2, 3, 4, 5, 6, 7, 8, 9] ∧
    (storeThenTrimConsecutiveTransactionsProcessed [] drained).2 = [] := by
  decide

/-- C1 amended: when processing a record throws, `processTransaction`
catches the error and still marks the entry `Processed`; no entry is ever
marked `Error`, so the error fence never triggers, and once the admitted
batch drains the consolidation persists every record (also the ones after
the failed record) and trims the whole sequence. -/
theorem c1_amended_thm :
    (∀ (outcome : ProcessorOutcome) (t : TransactionUnderProcessingModel),
      (processTransaction outcome t).1.processingStatus = .processed) ∧
    (∀ (oc : TransactionModel → ProcessorOutcome)
      (l : List TransactionUnderProcessingModel),
      hasErrorInTransactionProcessing (completeProcessing oc l) = false) ∧
    (∀ (oc : TransactionModel → ProcessorOutcome)
      (l : List TransactionUnderProcessingModel)
      (store : List TransactionModel),
      storeThenTrimConsecutiveTransactionsProcessed store
          (completeProcessing oc l) =
        (store ++ (completeProcessing oc l).map (fun t => t.transaction), [])) := by
  refine ⟨processTransaction_processingStatus, hasError_completeProcessing,
    fun oc l store => ?_⟩
  exact storeThenTrim_of_all_processed _ (completeProcessing_status oc l) store

/-! ### C4 -/

theorem processHistoricalBatchAux_eq
    (outcome : TransactionModel → ProcessorOutcome) :
    ∀ (l store unresolvable : List TransactionModel),
      processHistoricalBatchAux outcome l store unresolvable =
        (store ++ l, unresolvable) := by
  intro l
  induction l with
  | nil => intro store unresolvable; simp [processHistoricalBatchAux]
  | cons t rest ih =>
    intro store unresolvable
    rw [processHistoricalBatchAux]
    simp only [processTransaction, if_pos rfl, ih]
    simp

/-- C4 counterexample.  The claim states that a record whose processing
fails is NOT appended to the transaction store and gets an
unresolvable-transaction-fetch-attempt recorded.  In the code the
processor error is swallowed by `processTransaction`, the entry's status
is unconditionally `Processed`, hence `processHistoricalBatch` appends the
record to the transaction store and the catch branch that would record the
fetch attempt never runs: below, a batch whose only record's processor
throws still lands in the store, and no attempt is recorded. -/
theorem c4_counterexample :
    processHistoricalBatch (fun _ => .error ())
        [(⟨7, 3, 0, [], 0, 0, 0⟩ : TransactionModel)] 0 5 [] [] =
      ([(⟨7, 3, 0, [], 0, 0, 0⟩ : TransactionModel)], []) ∧
    (processTransaction (.error ())
        ⟨(⟨7, 3, 0, [], 0, 0, 0⟩ : TransactionModel), .processing⟩).1.processingStatus
      = .processed := by
  decide

/-- C4 amended: during historical sync each record of the batch, taken in
`transactionNumber` order, is processed and appended to the transaction
store REGARDLESS of the processor outcome (success, logical failure, or
throw), because `processTransaction` marks every entry `Processed`; the
unresolvable-fetch-attempt branch is unreachable and the unresolvable
store is left unchanged. -/
theorem c4_amended_thm (outcome : TransactionModel → ProcessorOutcome)
    (chain : List TransactionModel) (fromBlock toBlock : Nat)
    (store unresolvable : List TransactionModel) :
    processHistoricalBatch outcome chain fromBlock toBlock store unresolvable =
      (store ++ sortedBatch chain fromBlock toBlock, unresolvable) :=
  processHistoricalBatchAux_eq outcome _ store unresolvable

/-! ### C6 -/

/-- C6: in the live loop a block reorganization is detected — and another
iteration is forced (`moreTransactions = true`) — if and only if the
blockchain read failed with `InvalidTransactionNumberOrTimeHash` AND the
cursor transaction's `transactionTime` is at most the chain's latest time;
when the read fails with the invalid-cursor error but the inequality does
not hold, no reorg is declared (so `revertInvalidTransactions` is not
invoked) and `moreTransactions` is `false`, i.e. the loop idles until the
next tick. -/
theorem c6_thm (readOutcome : Except ReadError ReadResult)
    (cursorTransactionTime latestBlockchainTime : Nat) :
    (processReadAndDetectReorg readOutcome cursorTransactionTime
        latestBlockchainTime = .ok (true, true) ↔
      (readOutcome = .error .invalidTransactionNumberOrTimeHash ∧
        cursorTransactionTime ≤ latestBlockchainTime)) ∧
    (readOutcome = .error .invalidTransactionNumberOrTimeHash →
      ¬ cursorTransactionTime ≤ latestBlockchainTime →
      processReadAndDetectReorg readOutcome cursorTransactionTime
          latestBlockchainTime = .ok (false, false)) := by
  rcases readOutcome with e | r
  · rcases e with _ | _
    · by_cases h : cursorTransactionTime ≤ latestBlockchainTime <;>
        simp [processReadAndDetectReorg, h]
    · simp [processReadAndDetectReorg]
  · simp [processReadAndDetectReorg]

/-- C6 witness: a concrete invalid-cursor read with
`cursorTime = 2 ≤ 3 = latestTime` yields a detected reorg with a forced
extra iteration, and one with `cursorTime = 5 > 3 = latestTime` yields
no reorg and no further iteration. -/
theorem c6_witness :
    processReadAndDetectReorg (.error .invalidTransactionNumberOrTimeHash) 2 3 =
      .ok (true, true) ∧
    processReadAndDetectReorg (.error .invalidTransactionNumberOrTimeHash) 5 3 =
      .ok (false, false) :=
  ⟨(c6_thm (.error .invalidTransactionNumberOrTimeHash) 2 3).1.mpr
      ⟨rfl, by decide⟩,
    (c6_thm (.error .invalidTransactionNumberOrTimeHash) 5 3).2 rfl (by decide)⟩

/-! ### C7 -/

/-- C7 counterexample.  The claim states that with
`maxConcurrentDownloads = k` the number of `Processing` entries never
exceeds `k` at any instant.  In the code the admission loop (Observer.ts
lines 444-452) pushes EVERY qualified transaction with status `Processing`
and only afterwards waits for the count to fall to `k`; with `k = 2` and
a ten-record batch, the instant after admission has ten `Processing`
entries. -/
theorem c7_counterexample :
    let records := (List.range 10).map
      (fun i => (⟨i, 1, i, [], 0, 0, 0⟩ : TransactionModel))
    getCountOfTransactionsUnderProcessing (admitTransactions [] records) = 10 ∧
    ¬ getCountOfTransactionsUnderProcessing (admitTransactions [] records) ≤ 2 := by
  decide

/-- C7 amended: the `≤ maxConcurrentDownloads` bound holds at the exits of
the backpressure wait (so before the NEXT fetch), not at every instant:
whenever `waitUntilCountOfTransactionsUnderProcessingIsLessOrEqualTo`
returns, the count of `Processing` entries is at most `count`; admission
itself, however, pushes the whole qualified batch at once, adding exactly
its length to the `Processing` count. -/
theorem c7_amended_thm :
    (∀ (schedule : List (List TransactionUnderProcessingModel →
        List TransactionUnderProcessingModel))
      (l : List TransactionUnderProcessingModel) (count : Nat)
      (l' : List TransactionUnderProcessingModel),
      waitUntilCountOfTransactionsUnderProcessingIsLessOrEqualTo schedule l count
          = some l' →
      getCountOfTransactionsUnderProcessing l' ≤ count) ∧
    (∀ (l : List TransactionUnderProcessingModel)
      (b : List TransactionModel),
      getCountOfTransactionsUnderProcessing (admitTransactions l b) =
        getCountOfTransactionsUnderProcessing l + b.length) := by
  constructor
  · intro schedule
    induction schedule with
    | nil =>
      intro l count l' h
      rw [waitUntilCountOfTransactionsUnderProcessingIsLessOrEqualTo] at h
      split at h
      · cases h; assumption
      · cases h
    | cons step rest ih =>
      intro l count l' h
      rw [waitUntilCountOfTransactionsUnderProcessingIsLessOrEqualTo] at h
      split at h
      · cases h; assumption
      · exact ih (step l) count l' h
  · intro l b
    rw [admitTransactions, getCountOfTransactionsUnderProcessing,
      List.filter_append, List.length_append]
    congr 1
    induction b with
    | nil => rfl
    | cons t rest ih => simpa using ih

/-- C7 amended witness: on the empty sequence the wait returns at once and
its exit bound holds; admitting one record adds one to the count. -/
theorem c7_amended_witness :
    waitUntilCountOfTransactionsUnderProcessingIsLessOrEqualTo [] [] 2 =
      some [] ∧
    getCountOfTransactionsUnderProcessing ([] : List TransactionUnderProcessingModel) ≤ 2 ∧
    getCountOfTransactionsUnderProcessing
        (admitTransactions [] [(⟨0, 0, 0, [], 0, 0, 0⟩ : TransactionModel)]) =
      getCountOfTransactionsUnderProcessing
        ([] : List TransactionUnderProcessingModel) + 1 :=
  ⟨rfl, c7_amended_thm.1 [] [] 2 [] rfl,
    c7_amended_thm.2 [] [(⟨0, 0, 0, [], 0, 0, 0⟩ : TransactionModel)]⟩

/-! ### C2 -/

theorem mem_sortedBatch {chain : List TransactionModel} {fromBlock toBlock : Nat}
    {x : TransactionModel} (hx : x ∈ sortedBatch chain fromBlock toBlock) :
    x ∈ chain ∧ fromBlock ≤ x.transactionTime ∧ x.transactionTime ≤ toBlock := by
  rw [sortedBatch, List.mem_insertionSort] at hx
  rw [getTransactionsInRange, List.mem_filter] at hx
  exact ⟨hx.1, by simpa using hx.2⟩

theorem sortedBatch_chain' (chain : List TransactionModel)
    (fromBlock toBlock : Nat) :
    List.Chain' leByNumber (sortedBatch chain fromBlock toBlock) :=
  (List.sorted_insertionSort leByNumber
    (getTransactionsInRange chain fromBlock toBlock)).chain'

theorem performHistoricalSyncAux_chain'
    (outcome : TransactionModel → ProcessorOutcome)
    (chain : List TransactionModel) (batchSize targetBlock : Nat)
    (hmono : ∀ a ∈ chain, ∀ b ∈ chain,
      a.transactionTime < b.transactionTime →
      a.transactionNumber < b.transactionNumber)
    (huniq : ∀ a ∈ chain, ∀ b ∈ chain,
      a.transactionTime = b.transactionTime → a = b) :
    ∀ (fuel lastSyncedBlock : Nat)
      (store unresolvable : List TransactionModel),
      List.Chain' leByNumber store →
      (∀ x ∈ store, ∀ c ∈ chain, lastSyncedBlock ≤ c.transactionTime →
        x.transactionNumber ≤ c.transactionNumber) →
      List.Chain' leByNumber
        (performHistoricalSyncAux outcome chain batchSize targetBlock
          fuel lastSyncedBlock store unresolvable).1 := by
  intro fuel
  induction fuel with
  | zero =>
    intro s store unresolvable hstore _
    simpa [performHistoricalSyncAux] using hstore
  | succ fuel ih =>
    intro s store unresolvable hstore hinv
    rw [performHistoricalSyncAux]
    split
    · next hlt =>
      simp only [processHistoricalBatch, processHistoricalBatchAux_eq]
      set e := min (s + batchSize) targetBlock with he
      have hse : s ≤ e := le_min (Nat.le_add_right s batchSize) (le_of_lt hlt)
      apply ih e (store ++ sortedBatch chain s e) unresolvable
      · rw [List.chain'_append]
        refine ⟨hstore, sortedBatch_chain' chain s e, ?_⟩
        intro x hx y hy
        have hxs : x ∈ store := List.mem_of_mem_getLast? hx
        have hyb := mem_sortedBatch (List.mem_of_mem_head? hy)
        exact hinv x hxs y hyb.1 hyb.2.1
      · intro x hx c hc hec
        rcases List.mem_append.mp hx with hxs | hxb
        · exact hinv x hxs c hc (le_trans hse hec)
        · rcases mem_sortedBatch hxb with ⟨hxchain, _, hxe⟩
          have hxc : x.transactionTime ≤ c.transactionTime := le_trans hxe hec
          rcases lt_or_eq_of_le hxc with hlt' | heq
          · exact le_of_lt (hmono x hxchain c hc hlt')
          · exact le_of_eq (congrArg TransactionModel.transactionNumber
              (huniq x hxchain c hc heq))
    · simpa using hstore

/-- C2 counterexample.  The claim states that consecutive records
persisted to the transaction store are STRICTLY increasing in
`transactionNumber`.  In historical sync consecutive batches are the
inclusive block ranges `[s, e]` and `[e, e']` with the shared boundary
block `e`, so a record anchored exactly at a batch-boundary block is
fetched — and, since every processed record is stored — persisted twice in
a row.  Concretely: one record at block 2, `batchSize = 2`,
`targetBlock = 3`; the batches are `[0,2]` and `[2,3]`, and the store
receives the record twice, so the persisted sequence `[0, 0]` is not
strictly increasing. -/
theorem c2_counterexample :
    (performHistoricalSync (fun _ => .ok true)
        [(⟨0, 2, 0, [], 0, 0, 0⟩ : TransactionModel)] 2 0 3 [] []).1 =
      [(⟨0, 2, 0, [], 0, 0, 0⟩ : TransactionModel),
        (⟨0, 2, 0, [], 0, 0, 0⟩ : TransactionModel)] ∧
    ¬ List.Chain' (fun a b => a.transactionNumber < b.transactionNumber)
      (performHistoricalSync (fun _ => .ok true)
        [(⟨0, 2, 0, [], 0, 0, 0⟩ : TransactionModel)] 2 0 3 [] []).1 := by
  have heq : (performHistoricalSync (fun _ => .ok true)
      [(⟨0, 2, 0, [], 0, 0, 0⟩ : TransactionModel)] 2 0 3 [] []).1 =
      [(⟨0, 2, 0, [], 0, 0, 0⟩ : TransactionModel),
        (⟨0, 2, 0, [], 0, 0, 0⟩ : TransactionModel)] := by decide
  refine ⟨heq, ?_⟩
  rw [heq]
  simp [List.chain'_cons]

/-- C2 amended: during a historical run starting from an empty store the
sequence of records persisted to the transaction store is NON-decreasing
in `transactionNumber` — provided anchor numbers grow with block height
and each block carries at most one anchor record; strictness fails exactly
because the boundary block shared by two consecutive inclusive batches is
scanned twice, re-persisting its record. -/
theorem c2_amended_thm (outcome : TransactionModel → ProcessorOutcome)
    (chain : List TransactionModel) (batchSize startBlock targetBlock : Nat)
    (hmono : ∀ a ∈ chain, ∀ b ∈ chain,
      a.transactionTime < b.transactionTime →
      a.transactionNumber < b.transactionNumber)
    (huniq : ∀ a ∈ chain, ∀ b ∈ chain,
      a.transactionTime = b.transactionTime → a = b) :
    List.Chain' leByNumber
      (performHistoricalSync outcome chain batchSize startBlock targetBlock
        [] []).1 :=
  performHistoricalSyncAux_chain' outcome chain batchSize targetBlock
    hmono huniq (targetBlock - startBlock) startBlock [] []
    List.chain'_nil (by intro x hx; cases hx)

/-- C2 amended witness: a two-record chain (numbers 0, 1 at blocks 1, 2)
synced with `batchSize = 1` up to block 3 satisfies the hypotheses, and
the theorem yields the non-decreasing persisted sequence. -/
theorem c2_amended_witness :
    (∀ a ∈ [(⟨0, 1, 0, [], 0, 0, 0⟩ : TransactionModel),
        (⟨1, 2, 0, [], 0, 0, 0⟩ : TransactionModel)],
      ∀ b ∈ [(⟨0, 1, 0, [], 0, 0, 0⟩ : TransactionModel),
        (⟨1, 2, 0, [], 0, 0, 0⟩ : TransactionModel)],
      a.transactionTime < b.transactionTime →
      a.transactionNumber < b.transactionNumber) ∧
    (∀ a ∈ [(⟨0, 1, 0, [], 0, 0, 0⟩ : TransactionModel),
        (⟨1, 2, 0, [], 0, 0, 0⟩ : TransactionModel)],
      ∀ b ∈ [(⟨0, 1, 0, [], 0, 0, 0⟩ : TransactionModel),
        (⟨1, 2, 0, [], 0, 0, 0⟩ : TransactionModel)],
      a.transactionTime = b.transactionTime → a = b) ∧
    List.Chain' leByNumber
      (performHistoricalSync (fun _ => .ok true)
        [(⟨0, 1, 0, [], 0, 0, 0⟩ : TransactionModel),
          (⟨1, 2, 0, [], 0, 0, 0⟩ : TransactionModel)] 1 0 3 [] []).1 :=
  ⟨by decide, by decide,
    c2_amended_thm (fun _ => .ok true) _ 1 0 3 (by decide) (by decide)⟩

/-! ### C3 -/

/-- C3: after a reorg rewind whose probe yields best known valid
transaction `V`, no store retains anything later than `V` — the operation
store holds no operation with source transaction number `> V`, the
unresolvable store no entry `> V`, the transaction store no record `> V` —
and the three deletions are issued exactly in the order operations,
unresolvables, transactions. -/
theorem c3_thm
    (getExponentiallySpacedTransactions :
      List TransactionModel → List TransactionModel)
    (getFirstValidTransaction :
      List TransactionModel → Option TransactionModel)
    (operations : List Nat)
    (unresolvable transactions : List TransactionModel)
    (V : TransactionModel)
    (hprobe : getFirstValidTransaction
      (getExponentiallySpacedTransactions transactions) = some V) :
    (∀ n ∈ (revertInvalidTransactions getExponentiallySpacedTransactions
        getFirstValidTransaction operations unresolvable transactions).1.1,
      n ≤ V.transactionNumber) ∧
    (∀ t ∈ (revertInvalidTransactions getExponentiallySpacedTransactions
        getFirstValidTransaction operations unresolvable transactions).1.2.1,
      t.transactionNumber ≤ V.transactionNumber) ∧
    (∀ t ∈ (revertInvalidTransactions getExponentiallySpacedTransactions
        getFirstValidTransaction operations unresolvable transactions).1.2.2,
      t.transactionNumber ≤ V.transactionNumber) ∧
    (revertInvalidTransactions getExponentiallySpacedTransactions
        getFirstValidTransaction operations unresolvable transactions).2 =
      [.deleteOperationsLaterThan (some V.transactionNumber),
        .removeUnresolvableLaterThan (some V.transactionNumber),
        .removeTransactionsLaterThan (some V.transactionNumber)] := by
  refine ⟨?_, ?_, ?_, ?_⟩ <;>
    simp [revertInvalidTransactions, hprobe, operationStoreDelete,
      removeUnresolvableTransactionsLaterThan,
      removeTransactionsLaterThanFromStore, List.mem_filter]

/-- C3 witness: concrete stores whose probe returns the record with
number 7; everything later is pruned and the deletion trace has the
operations → unresolvables → transactions order. -/
theorem c3_witness :
    ((fun _ : List TransactionModel =>
        some (⟨7, 1, 0, [], 0, 0, 0⟩ : TransactionModel))
      ((fun l : List TransactionModel => l)
        [(⟨8, 2, 0, [], 0, 0, 0⟩ : TransactionModel)]) =
      some (⟨7, 1, 0, [], 0, 0, 0⟩ : TransactionModel)) ∧
    ((∀ n ∈ (revertInvalidTransactions (fun l => l)
        (fun _ => some (⟨7, 1, 0, [], 0, 0, 0⟩ : TransactionModel))
        [3, 9] [(⟨10, 3, 0, [], 0, 0, 0⟩ : TransactionModel)]
        [(⟨8, 2, 0, [], 0, 0, 0⟩ : TransactionModel)]).1.1, n ≤ 7) ∧
    (∀ t ∈ (revertInvalidTransactions (fun l => l)
        (fun _ => some (⟨7, 1, 0, [], 0, 0, 0⟩ : TransactionModel))
        [3, 9] [(⟨10, 3, 0, [], 0, 0, 0⟩ : TransactionModel)]
        [(⟨8, 2, 0, [], 0, 0, 0⟩ : TransactionModel)]).1.2.1,
      t.transactionNumber ≤ 7) ∧
    (∀ t ∈ (revertInvalidTransactions (fun l => l)
        (fun _ => some (⟨7, 1, 0, [], 0, 0, 0⟩ : TransactionModel))
        [3, 9] [(⟨10, 3, 0, [], 0, 0, 0⟩ : TransactionModel)]
        [(⟨8, 2, 0, [], 0, 0, 0⟩ : TransactionModel)]).1.2.2,
      t.transactionNumber ≤ 7) ∧
    (revertInvalidTransactions (fun l => l)
        (fun _ => some (⟨7, 1, 0, [], 0, 0, 0⟩ : TransactionModel))
        [3, 9] [(⟨10, 3, 0, [], 0, 0, 0⟩ : TransactionModel)]
        [(⟨8, 2, 0, [], 0, 0, 0⟩ : TransactionModel)]).2 =
      [.deleteOperationsLaterThan (some 7),
        .removeUnresolvableLaterThan (some 7),
        .removeTransactionsLaterThan (some 7)]) :=
  ⟨rfl,
    c3_thm (fun l => l)
      (fun _ => some (⟨7, 1, 0, [], 0, 0, 0⟩ : TransactionModel))
      [3, 9] [(⟨10, 3, 0, [], 0, 0, 0⟩ : TransactionModel)]
      [(⟨8, 2, 0, [], 0, 0, 0⟩ : TransactionModel)]
      (⟨7, 1, 0, [], 0, 0, 0⟩ : TransactionModel) rfl⟩

/-! ### C5 -/

/-- C5: on start the sync-state machine sets `targetBlock` to the chain
tip and decides the phase: with no persisted transaction it enters
Historical at the contract deployment block with `isComplete = false`;
otherwise it computes the gap between the tip and the block height of the
last record's `transactionTimeHash`, resumes Historical at that block when
the gap exceeds the historical batch size, and enters Live with
`isComplete = true` otherwise. -/
theorem c5_thm (st : SyncState) (latestTime : Nat)
    (lastTransaction : Option TransactionModel)
    (getBlockNumberByHash : Nat → Nat) (batchSize : Nat) :
    (initializeSyncState st latestTime lastTransaction getBlockNumberByHash
        batchSize).targetBlock = latestTime ∧
    (lastTransaction = none →
      (initializeSyncState st latestTime lastTransaction getBlockNumberByHash
          batchSize) =
        { st with
            phase := .historical
            targetBlock := latestTime
            lastSyncedBlock := detectContractDeploymentBlock
            contractDeploymentBlock := detectContractDeploymentBlock
            isComplete := false }) ∧
    (∀ lastTx, lastTransaction = some lastTx →
      (((latestTime : Int) -
          (getBlockNumberByHash lastTx.transactionTimeHash : Int) >
            (batchSize : Int) →
        (initializeSyncState st latestTime lastTransaction getBlockNumberByHash
            batchSize) =
          { st with
              phase := .historical
              targetBlock := latestTime
              lastSyncedBlock := getBlockNumberByHash lastTx.transactionTimeHash
              contractDeploymentBlock := detectContractDeploymentBlock
              isComplete := false }) ∧
      (¬ ((latestTime : Int) -
          (getBlockNumberByHash lastTx.transactionTimeHash : Int) >
            (batchSize : Int)) →
        (initializeSyncState st latestTime lastTransaction getBlockNumberByHash
            batchSize) =
          { st with
              phase := .live
              targetBlock := latestTime
              isComplete := true }))) := by
  refine ⟨?_, ?_, ?_⟩
  · rcases lastTransaction with _ | lastTx
    · rfl
    · rw [initializeSyncState]
      split <;> rfl
  · rintro rfl; rfl
  · rintro lastTx rfl
    constructor
    · intro hgap
      rw [initializeSyncState]
      rw [if_pos (by exact hgap)]
    · intro hgap
      rw [initializeSyncState]
      rw [if_neg (by exact hgap)]

/-- C5 witness: from an empty store (tip 9) the machine enters Historical
at block 0; with a last record at height 3, tip 9 and batch size 5 the gap
6 exceeds 5, resuming Historical at block 3; with batch size 6 the gap
does not exceed it and the machine enters Live, complete. -/
theorem c5_witness :
    (initializeSyncState ⟨.historical, 0, 0, 0, false⟩ 9 none (fun h => h) 5) =
      { phase := .historical, lastSyncedBlock := 0, targetBlock := 9,
        contractDeploymentBlock := 0, isComplete := false } ∧
    (initializeSyncState ⟨.historical, 0, 0, 0, false⟩ 9
        (some (⟨0, 3, 3, [], 0, 0, 0⟩ : TransactionModel)) (fun h => h) 5) =
      { phase := .historical, lastSyncedBlock := 3, targetBlock := 9,
        contractDeploymentBlock := 0, isComplete := false } ∧
    (initializeSyncState ⟨.historical, 0, 0, 0, false⟩ 9
        (some (⟨0, 3, 3, [], 0, 0, 0⟩ : TransactionModel)) (fun h => h) 6) =
      { phase := .live, lastSyncedBlock := 0, targetBlock := 9,
        contractDeploymentBlock := 0, isComplete := true } :=
  ⟨(c5_thm ⟨.historical, 0, 0, 0, false⟩ 9 none (fun h => h) 5).2.1 rfl,
    ((c5_thm ⟨.historical, 0, 0, 0, false⟩ 9
        (some (⟨0, 3, 3, [], 0, 0, 0⟩ : TransactionModel)) (fun h => h) 5).2.2
      (⟨0, 3, 3, [], 0, 0, 0⟩ : TransactionModel) rfl).1 (by decide),
    ((c5_thm ⟨.historical, 0, 0, 0, false⟩ 9
        (some (⟨0, 3, 3, [], 0, 0, 0⟩ : TransactionModel)) (fun h => h) 6).2.2
      (⟨0, 3, 3, [], 0, 0, 0⟩ : TransactionModel) rfl).2 (by decide)⟩

/-! ### C8 -/

theorem retryLoop_all_fail (attempts : Nat → Option BatchError)
    (maxRetries retryDelayMs : Nat) (errOf : Nat → BatchError)
    (hatt : ∀ i, i ≤ maxRetries → attempts i = some (errOf i)) :
    ∀ (remaining retryCount : Nat) (sleeps : List Nat),
      retryCount + remaining = maxRetries → 1 ≤ remaining →
      retryLoop attempts maxRetries retryDelayMs remaining retryCount sleeps =
        ⟨sleeps ++ (List.range remaining).map
            (fun j => retryDelayMs * (retryCount + j + 1)),
          .error (errOf maxRetries)⟩ := by
  intro remaining
  induction remaining with
  | zero => intro _ _ _ h1; omega
  | succ remaining ih =>
    intro retryCount sleeps hsum _
    rw [retryLoop]
    have hle : retryCount + 1 ≤ maxRetries := by omega
    rw [hatt (retryCount + 1) hle]
    dsimp only
    by_cases hstop : maxRetries ≤ retryCount + 1
    · have hrem : remaining = 0 := by omega
      subst hrem
      rw [if_pos hstop]
      have h1 : retryCount + 0 + 1 = maxRetries := by omega
      simp only [List.range_succ, List.range_zero, List.nil_append,
        List.map_cons, List.map_nil, h1]
    · have hrem1 : 1 ≤ remaining := by omega
      rw [if_neg hstop]
      rw [ih (retryCount + 1) (sleeps ++ [retryDelayMs * (retryCount + 1)])
        (by omega) hrem1]
      have hfun : ((fun j => retryDelayMs * (retryCount + j + 1)) ∘ Nat.succ) =
          (fun j => retryDelayMs * (retryCount + 1 + j + 1)) := by
        funext j
        show retryDelayMs * (retryCount + (j + 1) + 1) =
          retryDelayMs * (retryCount + 1 + j + 1)
        congr 1
        omega
      rw [List.range_succ_eq_map, List.map_cons, List.map_map, hfun]
      simp [List.append_assoc]

theorem performHistoricalSyncAux_store_extends
    (outcome : TransactionModel → ProcessorOutcome)
    (chain : List TransactionModel) (batchSize targetBlock : Nat) :
    ∀ (fuel lastSyncedBlock : Nat)
      (store unresolvable : List TransactionModel),
      ∃ tail, (performHistoricalSyncAux outcome chain batchSize targetBlock
        fuel lastSyncedBlock store unresolvable).1 = store ++ tail := by
  intro fuel
  induction fuel with
  | zero =>
    intro s store unresolvable
    exact ⟨[], by simp [performHistoricalSyncAux]⟩
  | succ fuel ih =>
    intro s store unresolvable
    rw [performHistoricalSyncAux]
    split
    · simp only [processHistoricalBatch, processHistoricalBatchAux_eq]
      rcases ih (min (s + batchSize) targetBlock)
        (store ++ sortedBatch chain s (min (s + batchSize) targetBlock))
        unresolvable with ⟨tail, htail⟩
      exact ⟨sortedBatch chain s (min (s + batchSize) targetBlock) ++ tail,
        by rw [htail, List.append_assoc]⟩
    · exact ⟨[], by simp⟩

/-- C8: a failing historical batch is retried up to `maxRetries` times
with linear backoff — before retry attempt `j + 1` the loop sleeps
`retryDelayMs * (j + 1)` — and when every attempt (the initial one and all
`maxRetries` retries) fails, the walk aborts surfacing the LAST attempt's
error; moreover the store only ever grows during the historical walk, so
the records persisted by earlier batches survive an abort (the prefix
`store` is preserved by any continuation of the sync loop), which is what
lets the next start resume from the store. -/
theorem c8_thm :
    (∀ (attempts : Nat → Option BatchError)
      (maxRetries retryDelayMs : Nat) (errOf : Nat → BatchError),
      1 ≤ maxRetries →
      (∀ i, i ≤ maxRetries → attempts i = some (errOf i)) →
      processBatchWithRetries attempts maxRetries retryDelayMs =
        ⟨(List.range maxRetries).map (fun j => retryDelayMs * (j + 1)),
          .error (errOf maxRetries)⟩) ∧
    (∀ (outcome : TransactionModel → ProcessorOutcome)
      (chain : List TransactionModel)
      (batchSize targetBlock fuel lastSyncedBlock : Nat)
      (store unresolvable : List TransactionModel),
      (performHistoricalSyncAux outcome chain batchSize targetBlock
        fuel lastSyncedBlock store unresolvable).1.take store.length = store) := by
  constructor
  · intro attempts maxRetries retryDelayMs errOf hmr hatt
    rw [processBatchWithRetries, hatt 0 (Nat.zero_le _)]
    have := retryLoop_all_fail attempts maxRetries retryDelayMs errOf hatt
      maxRetries 0 [] (by omega) hmr
    rw [this]
    simp
  · intro outcome chain batchSize targetBlock fuel s store unresolvable
    rcases performHistoricalSyncAux_store_extends outcome chain batchSize
      targetBlock fuel s store unresolvable with ⟨tail, htail⟩
    rw [htail, List.take_left]

/-- C8 witness: with `maxRetries = 3`, `retryDelayMs = 1000` and every
attempt failing with its own index as error, the batch performs backoff
sleeps 1000, 2000, 3000 and aborts with the error of attempt 3; and a
one-record store survives a sync continuation as the prefix of the result. -/
theorem c8_witness :
    (1 ≤ 3) ∧
    (∀ i, i ≤ 3 → (fun i => some i) i = some i) ∧
    processBatchWithRetries (fun i => some i) 3 1000 =
      ⟨[1000, 2000, 3000], .error 3⟩ ∧
    (performHistoricalSyncAux (fun _ => .ok true) [] 1 5 5 0
        [(⟨0, 0, 0, [], 0, 0, 0⟩ : TransactionModel)] []).1.take 1 =
      [(⟨0, 0, 0, [], 0, 0, 0⟩ : TransactionModel)] :=
  ⟨by decide, fun i _ => rfl,
    (c8_thm.1 (fun i => some i) 3 1000 (fun i => i) (by decide)
      (fun i _ => rfl)).trans (by decide),
    c8_thm.2 (fun _ => .ok true) [] 1 5 5 0
      [(⟨0, 0, 0, [], 0, 0, 0⟩ : TransactionModel)] []⟩

/-! ### C10 -/

/-- C10: `getSyncState` returns a defensive copy — the returned object's
value equals the internal `syncState` at the moment of the call, the call
leaves the observer's `syncState` reference and its referent unchanged,
and any subsequent mutation of the returned object leaves the internal
state untouched (the fresh address differs from the internal one by the
allocation invariant). -/
theorem c10_thm (h : ObserverHeap)
    (hfresh : h.syncStateRef < h.nextFresh) :
    (getSyncState h).2.cells (getSyncState h).1 = h.cells h.syncStateRef ∧
    (getSyncState h).2.syncStateRef = h.syncStateRef ∧
    (getSyncState h).2.cells ((getSyncState h).2.syncStateRef) =
      h.cells h.syncStateRef ∧
    (∀ v, (writeCell (getSyncState h).2 (getSyncState h).1 v).syncStateRef =
        h.syncStateRef ∧
      (writeCell (getSyncState h).2 (getSyncState h).1 v).cells
          h.syncStateRef = h.cells h.syncStateRef) := by
  have hne : h.syncStateRef ≠ h.nextFresh := Nat.ne_of_lt hfresh
  refine ⟨by simp [getSyncState], rfl, ?_, ?_⟩
  · simp [getSyncState, hne]
  · intro v
    refine ⟨rfl, ?_⟩
    simp [writeCell, getSyncState, hne]

/-- C10 witness: a concrete one-object heap; the copy matches the internal
state, the observer is untouched, and clobbering the returned object does
not change the internal state. -/
theorem c10_witness :
    ((⟨fun _ => ⟨.historical, 1, 2, 3, false⟩, 0, 1⟩ : ObserverHeap).syncStateRef <
      (⟨fun _ => ⟨.historical, 1, 2, 3, false⟩, 0, 1⟩ : ObserverHeap).nextFresh) ∧
    ((getSyncState ⟨fun _ => ⟨.historical, 1, 2, 3, false⟩, 0, 1⟩).2.cells
        (getSyncState ⟨fun _ => ⟨.historical, 1, 2, 3, false⟩, 0, 1⟩).1 =
      ⟨.historical, 1, 2, 3, false⟩) ∧
    (∀ v, (writeCell (getSyncState
          ⟨fun _ => ⟨.historical, 1, 2, 3, false⟩, 0, 1⟩).2
        (getSyncState ⟨fun _ => ⟨.historical, 1, 2, 3, false⟩, 0, 1⟩).1
        v).cells 0 = ⟨.historical, 1, 2, 3, false⟩) :=
  ⟨Nat.zero_lt_one,
    (c10_thm ⟨fun _ => ⟨.historical, 1, 2, 3, false⟩, 0, 1⟩ Nat.zero_lt_one).1,
    fun v => ((c10_thm ⟨fun _ => ⟨.historical, 1, 2, 3, false⟩, 0, 1⟩
      Nat.zero_lt_one).2.2.2 v).2⟩

/-! ### C9: decimal and base58 lemmas -/

theorem parseDecimalAux_append (l1 l2 : List Char) :
    ∀ acc, parseDecimalAux (l1 ++ l2) acc =
      (parseDecimalAux l1 acc).bind (fun a => parseDecimalAux l2 a) := by
  induction l1 with
  | nil => intro acc; rfl
  | cons c rest ih =>
    intro acc
    rw [List.cons_append, parseDecimalAux, parseDecimalAux]
    rcases hd : parseDecDigit c with _ | d
    · rfl
    · exact ih (acc * 10 + d)

theorem parseDecDigit_decDigitChar {d : Nat} (hd : d < 10) :
    parseDecDigit (decDigitChar d) = some d := by
  have : ∀ e : Fin 10, parseDecDigit (decDigitChar e.val) = some e.val := by
    decide
  exact this ⟨d, hd⟩

theorem parse_decDigitsAux :
    ∀ (fuel n : Nat), n ≤ fuel → ∀ acc,
      parseDecimalAux (decDigitsAux fuel n) acc =
        some (acc * 10 ^ (decDigitsAux fuel n).length + n) := by
  intro fuel
  induction fuel with
  | zero =>
    intro n hn acc
    have : n = 0 := Nat.le_zero.mp hn
    subst this
    simp [decDigitsAux, parseDecimalAux]
  | succ fuel ih =>
    intro n hn acc
    rw [decDigitsAux]
    by_cases hz : n = 0
    · subst hz
      simp [parseDecimalAux]
    · rw [if_neg hz]
      have hdiv : n / 10 ≤ fuel := by
        have h2 : n / 10 < n := Nat.div_lt_self (Nat.pos_of_ne_zero hz)
          (by norm_num)
        omega
      rw [parseDecimalAux_append, ih (n / 10) hdiv acc]
      dsimp only [Option.bind]
      simp only [parseDecimalAux,
        parseDecDigit_decDigitChar (Nat.mod_lt n (by omega))]
      rw [List.length_append, List.length_singleton, pow_succ, ← mul_assoc]
      congr 1
      have hmod := Nat.div_add_mod n 10
      generalize acc * 10 ^ (decDigitsAux fuel (n / 10)).length = k
      omega

theorem decDigitsAux_ne_nil {fuel n : Nat} (hz : n ≠ 0) (hn : n ≤ fuel) :
    decDigitsAux fuel n ≠ [] := by
  rcases fuel with _ | fuel
  · omega
  · rw [decDigitsAux, if_neg hz]
    simp

theorem parseDecimal_decRepr (n : Nat) :
    parseDecimal (decRepr n) = some n := by
  rw [decRepr]
  by_cases hz : n = 0
  · subst hz; decide
  · rw [if_neg hz, parseDecimal,
      if_neg (by simpa [List.isEmpty_iff] using decDigitsAux_ne_nil hz le_rfl)]
    rw [parse_decDigitsAux n n le_rfl 0]
    simp

theorem mem_decDigitsAux :
    ∀ (fuel n : Nat) (c : Char), c ∈ decDigitsAux fuel n →
      ∃ d, d < 10 ∧ c = decDigitChar d := by
  intro fuel
  induction fuel with
  | zero => intro n c hc; simp [decDigitsAux] at hc
  | succ fuel ih =>
    intro n c hc
    rw [decDigitsAux] at hc
    by_cases hz : n = 0
    · rw [if_pos hz] at hc; simp at hc
    · rw [if_neg hz, List.mem_append] at hc
      rcases hc with hc | hc
      · exact ih (n / 10) c hc
      · rw [List.mem_singleton] at hc
        exact ⟨n % 10, Nat.mod_lt n (by omega), hc⟩

theorem dot_not_mem_decRepr (n : Nat) : '.' ∉ decRepr n := by
  rw [decRepr]
  by_cases hz : n = 0
  · rw [if_pos hz]; decide
  · rw [if_neg hz]
    intro hmem
    rcases mem_decDigitsAux n n '.' hmem with ⟨d, hd, hc⟩
    have : ∀ e : Fin 10, decDigitChar e.val ≠ '.' := by decide
    exact this ⟨d, hd⟩ hc.symm

theorem getD_self_or_mem (l : List Char) (i : Nat) (d : Char) :
    l.getD i d = d ∨ l.getD i d ∈ l := by
  induction l generalizing i with
  | nil => left; rfl
  | cons c rest ih =>
    rcases i with _ | i
    · right; simp [List.getD]
    · rcases ih i with h | h
      · left; simpa [List.getD] using h
      · right
        simp only [List.getD] at h ⊢
        exact List.mem_cons_of_mem c h

theorem base58Digit_mem (d : Nat) : base58Digit d ∈ base58Alphabet := by
  rcases getD_self_or_mem base58Alphabet d '1' with h | h
  · rw [base58Digit, h]; decide
  · exact h

theorem mem_base58DigitsAux :
    ∀ (fuel n : Nat) (c : Char), c ∈ base58DigitsAux fuel n →
      c ∈ base58Alphabet := by
  intro fuel
  induction fuel with
  | zero => intro n c hc; simp [base58DigitsAux] at hc
  | succ fuel ih =>
    intro n c hc
    rw [base58DigitsAux] at hc
    by_cases hz : n = 0
    · rw [if_pos hz] at hc; simp at hc
    · rw [if_neg hz, List.mem_append] at hc
      rcases hc with hc | hc
      · exact ih (n / 58) c hc
      · rw [List.mem_singleton] at hc
        rw [hc]
        exact base58Digit_mem (n % 58)

theorem dot_not_mem_bufferToBase58 (bytes : List Nat) :
    '.' ∉ bufferToBase58 bytes := by
  rw [bufferToBase58]
  intro hmem
  rw [List.mem_append] at hmem
  rcases hmem with hmem | hmem
  · rw [List.mem_replicate] at hmem
    exact absurd hmem.2 (by decide)
  · have := mem_base58DigitsAux _ _ '.' hmem
    exact absurd this (by decide)

theorem splitOnDot_of_not_mem {l : List Char} (h : '.' ∉ l) :
    splitOnDot l = [l] := by
  induction l with
  | nil => rfl
  | cons c rest ih =>
    have hc : ¬ c = '.' := fun hc => h (by simp [hc])
    have hrest : '.' ∉ rest := fun hr => h (List.mem_cons_of_mem c hr)
    rw [splitOnDot, if_neg hc, ih hrest]

theorem splitOnDot_append {l1 l2 : List Char}
    (h1 : '.' ∉ l1) (h2 : '.' ∉ l2) :
    splitOnDot (l1 ++ '.' :: l2) = [l1, l2] := by
  induction l1 with
  | nil =>
    rw [List.nil_append, splitOnDot, if_pos rfl, splitOnDot_of_not_mem h2]
  | cons c rest ih =>
    have hc : ¬ c = '.' := fun hc => h1 (by simp [hc])
    have hrest : '.' ∉ rest := fun hr => h1 (List.mem_cons_of_mem c hr)
    rw [List.cons_append, splitOnDot, if_neg hc, ih hrest]

/-! ### C9 -/

/-- C9: for every anchor event log with a 32-byte `anchorFileHash`, the
chain reader builds the anchor string as the decimal `numberOfOperations`,
a dot, then the base58 encoding of the 34-byte buffer obtained by
prepending the multihash prefix bytes 0x12 0x20 to the raw hash; and this
encoding round-trips losslessly —
`serialize (deserialize s) = s` byte-exact for every anchor string `s` so
produced. -/
theorem c9_thm (log : ElementEventData)
    (_hlen : log.anchorFileHash.length = 32) :
    (eventLogToSidetreeTransaction log).anchorString =
      decRepr log.numberOfOperations ++
        '.' :: bufferToBase58 (0x12 :: 0x20 :: log.anchorFileHash) ∧
    (AnchoredDataSerializer.deserialize
        (eventLogToSidetreeTransaction log).anchorString).map
      AnchoredDataSerializer.serialize =
      some ((eventLogToSidetreeTransaction log).anchorString) := by
  refine ⟨rfl, ?_⟩
  show (AnchoredDataSerializer.deserialize
      (decRepr log.numberOfOperations ++
        '.' :: bufferToBase58 (0x12 :: 0x20 :: log.anchorFileHash))).map
      AnchoredDataSerializer.serialize = _
  rw [AnchoredDataSerializer.deserialize,
    splitOnDot_append (dot_not_mem_decRepr log.numberOfOperations)
      (dot_not_mem_bufferToBase58 (0x12 :: 0x20 :: log.anchorFileHash))]
  dsimp only
  rw [parseDecimal_decRepr]
  rfl

/-- C9 witness: a concrete log (32 hash bytes of value 7, 100 operations)
produces an anchor string of the claimed shape that survives the
deserialize-then-serialize round trip byte-exactly. -/
theorem c9_witness :
    ((⟨List.replicate 32 7, 100, 5, 1, 9, 3⟩ :
        ElementEventData).anchorFileHash.length = 32) ∧
    (eventLogToSidetreeTransaction
        ⟨List.replicate 32 7, 100, 5, 1, 9, 3⟩).anchorString =
      decRepr 100 ++
        '.' :: bufferToBase58 (0x12 :: 0x20 :: List.replicate 32 7) ∧
    (AnchoredDataSerializer.deserialize
        (eventLogToSidetreeTransaction
          ⟨List.replicate 32 7, 100, 5, 1, 9, 3⟩).anchorString).map
      AnchoredDataSerializer.serialize =
      some ((eventLogToSidetreeTransaction
        ⟨List.replicate 32 7, 100, 5, 1, 9, 3⟩).anchorString) :=
  ⟨by decide,
    (c9_thm ⟨List.replicate 32 7, 100, 5, 1, 9, 3⟩ (by decide)).1,
    (c9_thm ⟨List.replicate 32 7, 100, 5, 1, 9, 3⟩ (by decide)).2⟩

end SidetreeObserver
